import Mathlib

/-!
Shallow embedding of the cuckoo filter storage engine of this repository:
`src/cuckoo_table.hpp` (the `CuckooTable` template) and
`src/hash_function.hpp` (`fingerprintComplement`).

A bucket of `CuckooTable<entries_per_bucket, bits_per_fp, fp_type>` is a
packed byte block of `entries_per_bucket` bit fields, each `bits_per_fp`
bits wide.  We model a bucket as the list of its field values (each one
physically `bits_per_fp` bits wide, hence `< 2 ^ bits_per_fp`) and the
table as the list of its buckets.  The raw 64-bit word that
`containsFingerprint` reads from the bucket's bytes is recovered by
`BitManager.packBucket`.

`bit_manager.hpp` is included by `cuckoo_table.hpp` but is not part of the
two source files of the repository; the field codec (`read`, `write`,
`hasvalue`) is therefore modelled from the specification, section 4.1.
-/

/-- Template and constructor parameters of one `CuckooTable`
instantiation: `entries_per_bucket`, `bits_per_fp`, and the constructor
argument `fp_mask` (cuckoo_table.hpp:12-20). -/
structure TableCfg where
  entriesPerBucket : Nat
  bitsPerFp : Nat
  fpMask : Nat

/-- A bucket: the list of its `entries_per_bucket` stored field values. -/
abbrev Bucket := List Nat

/-- The table: `table_size` buckets (cuckoo_table.hpp:30). -/
abbrev Table := List Bucket

/-- A configuration as produced by the filter: positive shape, the
filter-derived mask `fp_mask = 2 ^ bits_per_fp - 1`, and a bucket small
enough for the 64-bit fast-path view (all five supported shapes satisfy
this). -/
abbrev TableCfg.valid (cfg : TableCfg) : Prop :=
  0 < cfg.entriesPerBucket ∧ 0 < cfg.bitsPerFp ∧
    cfg.fpMask = 2 ^ cfg.bitsPerFp - 1 ∧ cfg.entriesPerBucket * cfg.bitsPerFp ≤ 64

/-- Physical well-formedness of a table state: every bucket has
`entries_per_bucket` slots and every stored field value fits in
`bits_per_fp` bits (a byte block cannot hold more). -/
abbrev wfTable (cfg : TableCfg) (T : Table) : Prop :=
  ∀ bkt ∈ T, bkt.length = cfg.entriesPerBucket ∧ ∀ v ∈ bkt, v < 2 ^ cfg.bitsPerFp

namespace BitManager

/-- Modelled from the spec: `bit_manager.hpp` is not under `src/`.
Spec 4.1, `read(slot, bucket_bytes)`: extracts the bit field at slot `j`
zero-extended.  With a bucket modelled as its list of field values this is
the `j`-th entry (0 out of range, matching an all-zero byte block). -/
def read (j : Nat) (bucket : Bucket) : Nat :=
  bucket.getD j 0

/-- Modelled from the spec: `bit_manager.hpp` is not under `src/`.
Spec 4.1, `write(slot, bucket_bytes, fingerprint)`: writes exactly
`bits_per_fp` bits at slot `j`, leaving every other slot untouched. -/
def write (cfg : TableCfg) (j : Nat) (bucket : Bucket) (fp : Nat) : Bucket :=
  bucket.set j (fp % 2 ^ cfg.bitsPerFp)

/-- The packed little-endian word formed by a bucket's bytes: slot `j`
occupies bits `[bits_per_fp * j, bits_per_fp * (j+1))`. -/
def packBucket (cfg : TableCfg) : Bucket → Nat
  | [] => 0
  | v :: t => v % 2 ^ cfg.bitsPerFp + 2 ^ cfg.bitsPerFp * packBucket cfg t

/-- The bit field of slot `j` inside a packed bucket word. -/
def extractField (cfg : TableCfg) (j w : Nat) : Nat :=
  w / 2 ^ (cfg.bitsPerFp * j) % 2 ^ cfg.bitsPerFp

/-- Modelled from the spec: `bit_manager.hpp` is not under `src/`.
Spec 4.1, `contains(bucket_as_u64, fingerprint)`: tests whether the packed
64-bit view of the bucket holds the given value in one of its
`entries_per_bucket` fields; the spec requires this fast path to agree
exactly with iterating `read` over every slot. -/
def hasvalue (cfg : TableCfg) (val fp : Nat) : Bool :=
  (List.range cfg.entriesPerBucket).any fun j => extractField cfg j val == fp

end BitManager

/-- `CuckooTable::getFingerprint` (cuckoo_table.hpp:193-199): read slot
`j` of bucket `i` through the codec and mask with `fp_mask`. -/
def getFingerprint (cfg : TableCfg) (T : Table) (i j : Nat) : Nat :=
  BitManager.read j (T.getD i []) &&& cfg.fpMask

/-- `CuckooTable::fingerprintCount` (cuckoo_table.hpp:202-212): the number
of slots `j < entries_per_bucket` of bucket `i` holding a nonzero
fingerprint. -/
def fingerprintCount (cfg : TableCfg) (T : Table) (i : Nat) : Nat :=
  ((Finset.range cfg.entriesPerBucket).filter fun j => getFingerprint cfg T i j ≠ 0).card

/-- `CuckooTable::insertFingerprint` (cuckoo_table.hpp:215-221): write
`fp & fp_mask` into slot `j` of bucket `i`. -/
def insertFingerprint (cfg : TableCfg) (T : Table) (i j fp : Nat) : Table :=
  T.set i (BitManager.write cfg j (T.getD i []) (fp &&& cfg.fpMask))

/-- Result of `CuckooTable::replacingFingerprintInsertion`: the returned
bool, the by-reference out-parameter `prev_fp` (`none` when the call does
not write it), and the table state after the call. -/
structure InsertResult where
  inserted : Bool
  prevFp : Option Nat
  table : Table

/-- `CuckooTable::replacingFingerprintInsertion` (cuckoo_table.hpp:224-242):
insert `fp` into the first empty slot of bucket `i`; when the bucket is
full and `eject` holds, displace the fingerprint of slot
`rand() % entries_per_bucket`.  `rnd` models the value returned by
`rand()`. -/
def replacingFingerprintInsertion (cfg : TableCfg) (T : Table) (i fp : Nat)
    (eject : Bool) (rnd : Nat) : InsertResult :=
  match (List.range cfg.entriesPerBucket).find? (fun j => getFingerprint cfg T i j == 0) with
  | some j => ⟨true, none, insertFingerprint cfg T i j fp⟩
  | none =>
    if eject then
      ⟨false, some (getFingerprint cfg T i (rnd % cfg.entriesPerBucket)),
        insertFingerprint cfg T i (rnd % cfg.entriesPerBucket) fp⟩
    else ⟨false, none, T⟩

/-- `CuckooTable::containsFingerprint` (cuckoo_table.hpp:245-251): the
fast path reinterprets the bucket's bytes as one 64-bit word and asks the
codec whether it holds `fp`. -/
def containsFingerprint (cfg : TableCfg) (T : Table) (i fp : Nat) : Bool :=
  BitManager.hasvalue cfg (BitManager.packBucket cfg (T.getD i [])) fp

/-- `CuckooTable::deleteFingerprint` (cuckoo_table.hpp:267-276): clear the
first slot of bucket `i` whose read equals `fp` and report success. -/
def deleteFingerprint (cfg : TableCfg) (fp : Nat) (T : Table) (i : Nat) : Bool × Table :=
  match (List.range cfg.entriesPerBucket).find? (fun j => getFingerprint cfg T i j == fp) with
  | some j => (true, insertFingerprint cfg T i j 0)
  | none => (false, T)

/-- `MURMUR_CONST` (hash_function.hpp:16). -/
def MURMUR_CONST : Nat := 0x5bd1e995

/-- `fingerprintComplement` (hash_function.hpp:63-65):
`index ^ (fp * MURMUR_CONST)` with the multiplication performed in
`uint32_t` and the result truncated to the `uint32_t` return type. -/
def fingerprintComplement (index fp : Nat) : Nat :=
  (index ^^^ (fp * MURMUR_CONST) % 2 ^ 32) % 2 ^ 32

/-- The `(4, 8, uint8_t)` instantiation with the filter mask `0xFF`, used
for concrete instances. -/
def cfg48 : TableCfg := ⟨4, 8, 255⟩

theorem getD_mem_of_lt {α : Type} (l : List α) (i : Nat) (d : α) (h : i < l.length) :
    l.getD i d ∈ l := by
  rw [List.getD_eq_getElem?_getD, List.getElem?_eq_getElem h, Option.getD_some]
  exact List.getElem_mem h

theorem getD_set_self {α : Type} (l : List α) (i : Nat) (a d : α) (h : i < l.length) :
    (l.set i a).getD i d = a := by
  rw [List.getD_eq_getElem?_getD, List.getElem?_set_self h, Option.getD_some]

theorem getD_set_ne {α : Type} (l : List α) (i i' : Nat) (a d : α) (h : i ≠ i') :
    (l.set i a).getD i' d = l.getD i' d := by
  rw [List.getD_eq_getElem?_getD, List.getElem?_set_ne h, ← List.getD_eq_getElem?_getD]

theorem set_getD_self {α : Type} (l : List α) (i : Nat) (d : α) (h : i < l.length) :
    l.set i (l.getD i d) = l := by
  apply List.ext_getElem (by simp)
  intro k hk1 hk2
  by_cases hki : k = i
  · subst hki
    rw [List.getElem_set_self, List.getD_eq_getElem?_getD, List.getElem?_eq_getElem h,
      Option.getD_some]
  · rw [List.getElem_set_ne (fun he => hki he.symm)]

theorem bucket_wf (cfg : TableCfg) (T : Table) (hw : wfTable cfg T) (i : Nat)
    (hi : i < T.length) :
    (T.getD i []).length = cfg.entriesPerBucket ∧
      ∀ v ∈ T.getD i [], v < 2 ^ cfg.bitsPerFp :=
  hw _ (getD_mem_of_lt T i [] hi)

theorem extractField_packBucket (cfg : TableCfg) (l : Bucket) (j : Nat)
    (hj : j < l.length) :
    BitManager.extractField cfg j (BitManager.packBucket cfg l) =
      l.getD j 0 % 2 ^ cfg.bitsPerFp := by
  induction l generalizing j with
  | nil => simp at hj
  | cons v t ih =>
    cases j with
    | zero =>
      simp only [BitManager.extractField, BitManager.packBucket, Nat.mul_zero, Nat.pow_zero,
        Nat.div_one, List.getD_cons_zero]
      rw [Nat.add_mul_mod_self_left, Nat.mod_mod_of_dvd _ dvd_rfl]
    | succ j =>
      have hj' : j < t.length := by simpa using hj
      have hb : 0 < 2 ^ cfg.bitsPerFp := Nat.two_pow_pos _
      simp only [BitManager.extractField, BitManager.packBucket, List.getD_cons_succ]
      rw [Nat.mul_succ, Nat.pow_add, Nat.mul_comm (2 ^ (cfg.bitsPerFp * j)),
        ← Nat.div_div_eq_div_mul, Nat.add_mul_div_left _ _ hb,
        Nat.div_eq_of_lt (Nat.mod_lt _ hb), Nat.zero_add]
      exact ih j hj'

theorem getFingerprint_eq_getD (cfg : TableCfg) (T : Table) (i j : Nat)
    (hv : cfg.valid) (hw : wfTable cfg T) (hi : i < T.length)
    (hj : j < cfg.entriesPerBucket) :
    getFingerprint cfg T i j = (T.getD i []).getD j 0 ∧
      (T.getD i []).getD j 0 < 2 ^ cfg.bitsPerFp := by
  obtain ⟨hlen, hval⟩ := bucket_wf cfg T hw i hi
  have hjl : j < (T.getD i []).length := hlen ▸ hj
  have hlt : (T.getD i []).getD j 0 < 2 ^ cfg.bitsPerFp :=
    hval _ (getD_mem_of_lt _ j 0 hjl)
  refine ⟨?_, hlt⟩
  unfold getFingerprint BitManager.read
  rw [hv.2.2.1, Nat.and_pow_two_sub_one_eq_mod, Nat.mod_eq_of_lt hlt]

theorem insertFingerprint_length (cfg : TableCfg) (T : Table) (i j fp : Nat) :
    (insertFingerprint cfg T i j fp).length = T.length :=
  List.length_set T i _

theorem insertFingerprint_getD_self (cfg : TableCfg) (T : Table) (i j fp : Nat)
    (hi : i < T.length) :
    (insertFingerprint cfg T i j fp).getD i [] =
      (T.getD i []).set j ((fp &&& cfg.fpMask) % 2 ^ cfg.bitsPerFp) :=
  getD_set_self T i _ [] hi

theorem insertFingerprint_getD_other (cfg : TableCfg) (T : Table) (i j fp k : Nat)
    (hk : k ≠ i) :
    (insertFingerprint cfg T i j fp).getD k [] = T.getD k [] :=
  getD_set_ne T i k _ [] (fun h => hk h.symm)

theorem getFingerprint_insert_self (cfg : TableCfg) (T : Table) (i j fp : Nat)
    (hv : cfg.valid) (hw : wfTable cfg T) (hi : i < T.length)
    (hj : j < cfg.entriesPerBucket) :
    getFingerprint cfg (insertFingerprint cfg T i j fp) i j = fp &&& cfg.fpMask := by
  obtain ⟨hlen, _⟩ := bucket_wf cfg T hw i hi
  unfold getFingerprint BitManager.read
  rw [insertFingerprint_getD_self cfg T i j fp hi, getD_set_self _ j _ 0 (hlen ▸ hj)]
  rw [hv.2.2.1, Nat.and_pow_two_sub_one_eq_mod, Nat.and_pow_two_sub_one_eq_mod]
  simp [Nat.mod_mod_of_dvd _ dvd_rfl]

theorem getFingerprint_insert_ne (cfg : TableCfg) (T : Table) (i j fp j' : Nat)
    (hne : j' ≠ j) (hi : i < T.length) :
    getFingerprint cfg (insertFingerprint cfg T i j fp) i j' =
      getFingerprint cfg T i j' := by
  unfold getFingerprint BitManager.read
  rw [insertFingerprint_getD_self cfg T i j fp hi,
    getD_set_ne _ j j' _ 0 (fun h => hne h.symm)]

theorem wfTable_insert (cfg : TableCfg) (T : Table) (i j fp : Nat)
    (hw : wfTable cfg T) (hi : i < T.length) :
    wfTable cfg (insertFingerprint cfg T i j fp) := by
  intro bkt hmem
  unfold insertFingerprint BitManager.write at hmem
  rcases List.mem_or_eq_of_mem_set hmem with h | h
  · exact hw _ h
  · subst h
    obtain ⟨hlen, hval⟩ := bucket_wf cfg T hw i hi
    refine ⟨by simpa using hlen, ?_⟩
    intro v hv'
    rcases List.mem_or_eq_of_mem_set hv' with h2 | h2
    · exact hval _ h2
    · subst h2
      exact Nat.mod_lt _ (Nat.two_pow_pos _)

theorem extract_eq_getFingerprint (cfg : TableCfg) (T : Table) (i j : Nat)
    (hv : cfg.valid) (hw : wfTable cfg T) (hi : i < T.length)
    (hj : j < cfg.entriesPerBucket) :
    BitManager.extractField cfg j (BitManager.packBucket cfg (T.getD i [])) =
      getFingerprint cfg T i j := by
  obtain ⟨hlen, hval⟩ := bucket_wf cfg T hw i hi
  rw [extractField_packBucket cfg _ j (hlen ▸ hj)]
  have hlt : (T.getD i []).getD j 0 < 2 ^ cfg.bitsPerFp :=
    hval _ (getD_mem_of_lt _ j 0 (hlen ▸ hj))
  rw [Nat.mod_eq_of_lt hlt, (getFingerprint_eq_getD cfg T i j hv hw hi hj).1]

theorem containsFingerprint_eq_true_iff (cfg : TableCfg) (T : Table) (i fp : Nat)
    (hv : cfg.valid) (hw : wfTable cfg T) (hi : i < T.length) :
    containsFingerprint cfg T i fp = true ↔
      ∃ j, j < cfg.entriesPerBucket ∧ getFingerprint cfg T i j = fp := by
  unfold containsFingerprint BitManager.hasvalue
  rw [List.any_eq_true]
  constructor
  · rintro ⟨j, hjmem, hjeq⟩
    rw [List.mem_range] at hjmem
    rw [beq_iff_eq] at hjeq
    refine ⟨j, hjmem, ?_⟩
    rw [← extract_eq_getFingerprint cfg T i j hv hw hi hjmem]
    exact hjeq
  · rintro ⟨j, hj, hjeq⟩
    refine ⟨j, List.mem_range.2 hj, ?_⟩
    rw [beq_iff_eq, extract_eq_getFingerprint cfg T i j hv hw hi hj]
    exact hjeq

theorem card_filter_update_true (n j₀ : Nat) (p p' : Nat → Prop)
    [DecidablePred p] [DecidablePred p'] (hj : j₀ < n) (h₀ : ¬ p j₀) (h₁ : p' j₀)
    (he : ∀ j, j ≠ j₀ → (p' j ↔ p j)) :
    ((Finset.range n).filter p').card = ((Finset.range n).filter p).card + 1 := by
  have hins : (Finset.range n).filter p' = insert j₀ ((Finset.range n).filter p) := by
    ext j
    by_cases hjj : j = j₀
    · subst hjj
      simp [Finset.mem_filter, Finset.mem_range, hj, h₁]
    · simp [Finset.mem_filter, Finset.mem_insert, hjj, he j hjj]
  rw [hins, Finset.card_insert_of_not_mem]
  simp [Finset.mem_filter, h₀]

theorem card_filter_lt_iff_exists (n : Nat) (p : Nat → Prop) [DecidablePred p] :
    ((Finset.range n).filter p).card < n ↔ ∃ j, j < n ∧ ¬ p j := by
  constructor
  · intro h
    by_contra hne
    push_neg at hne
    have hall : (Finset.range n).filter p = Finset.range n :=
      Finset.filter_true_of_mem (fun x hx => hne x (Finset.mem_range.1 hx))
    rw [hall, Finset.card_range] at h
    omega
  · rintro ⟨j, hj, hpj⟩
    have hss : (Finset.range n).filter p ⊂ Finset.range n := by
      rw [Finset.ssubset_iff_of_subset (Finset.filter_subset _ _)]
      exact ⟨j, Finset.mem_range.2 hj, by simp [Finset.mem_filter, hpj]⟩
    simpa [Finset.card_range] using Finset.card_lt_card hss

theorem find?_range'_eq_some (p : Nat → Bool) :
    ∀ (n s j₀ : Nat), s ≤ j₀ → j₀ < s + n → p j₀ = true →
      (∀ j, s ≤ j → j < j₀ → p j = false) → (List.range' s n).find? p = some j₀ := by
  intro n
  induction n with
  | zero =>
    intro s j₀ h1 h2 _ _
    omega
  | succ n ih =>
    intro s j₀ h1 h2 hp hmin
    rw [List.range'_succ]
    by_cases hs : s = j₀
    · subst hs
      simp [List.find?_cons_of_pos, hp]
    · have hps : p s = false := hmin s (Nat.le_refl s) (by omega)
      have hns : ¬ p s = true := by simp [hps]
      rw [List.find?_cons_of_neg (List.range' (s + 1) n) hns]
      exact ih (s + 1) j₀ (by omega) (by omega) hp (fun j hj1 hj2 => hmin j (by omega) hj2)

theorem find?_range_eq_some (p : Nat → Bool) (n j₀ : Nat) (hj : j₀ < n)
    (hp : p j₀ = true) (hmin : ∀ j, j < j₀ → p j = false) :
    (List.range n).find? p = some j₀ := by
  rw [List.range_eq_range']
  exact find?_range'_eq_some p n 0 j₀ (Nat.zero_le _) (by omega) hp
    (fun j _ hj2 => hmin j hj2)

/-- C4: applying `fingerprintComplement` twice with the same fingerprint
returns the original index, for every 32-bit-representable index `i` and
every fingerprint `fp`: XOR with the scrambled fingerprint is
self-inverse. -/
theorem fingerprintComplement_involution (i fp : Nat) (h : i < 2 ^ 32) :
    fingerprintComplement (fingerprintComplement i fp) fp = i := by
  unfold fingerprintComplement
  have hm : (fp * MURMUR_CONST) % 2 ^ 32 < 2 ^ 32 := Nat.mod_lt _ (Nat.two_pow_pos 32)
  have hx : i ^^^ (fp * MURMUR_CONST) % 2 ^ 32 < 2 ^ 32 := Nat.xor_lt_two_pow h hm
  rw [Nat.mod_eq_of_lt hx, Nat.xor_assoc, Nat.xor_self, Nat.xor_zero, Nat.mod_eq_of_lt h]

/-- C4 witness: the double complement at a concrete index and
fingerprint. -/
theorem fingerprintComplement_involution_witness :
    fingerprintComplement (fingerprintComplement 12345 200) 200 = 12345 :=
  fingerprintComplement_involution 12345 200 (by decide)

/-- C9: every value the table returns is already masked —
`getFingerprint` masks the codec read with `fp_mask`, so no bits outside
`fp_mask` are ever returned, for every table state and every slot. -/
theorem getFingerprint_masked (cfg : TableCfg) (T : Table) (i j : Nat) :
    getFingerprint cfg T i j &&& cfg.fpMask = getFingerprint cfg T i j := by
  unfold getFingerprint
  apply Nat.eq_of_testBit_eq
  intro k
  simp only [Nat.testBit_and]
  rw [Bool.and_assoc, Bool.and_self]

/-- C3: when bucket `i` has no empty slot and eviction is disallowed,
`replacingFingerprintInsertion` returns `false`, does not write the
`prev_fp` out-parameter, and returns the table unchanged. -/
theorem replacingFingerprintInsertion_full_noEject (cfg : TableCfg) (T : Table)
    (i fp rnd : Nat)
    (hfull : ∀ j, j < cfg.entriesPerBucket → getFingerprint cfg T i j ≠ 0) :
    replacingFingerprintInsertion cfg T i fp false rnd = ⟨false, none, T⟩ := by
  have hfind : (List.range cfg.entriesPerBucket).find?
      (fun j => getFingerprint cfg T i j == 0) = none := by
    rw [List.find?_eq_none]
    intro x hx
    simp only [beq_iff_eq]
    exact hfull x (List.mem_range.1 hx)
  unfold replacingFingerprintInsertion
  rw [hfind]
  simp

/-- C3 witness: a full bucket with eviction disallowed at a concrete
table. -/
theorem replacingFingerprintInsertion_full_noEject_witness :
    replacingFingerprintInsertion cfg48 [[1, 2, 3, 4]] 0 9 false 0 =
      ⟨false, none, [[1, 2, 3, 4]]⟩ :=
  replacingFingerprintInsertion_full_noEject cfg48 [[1, 2, 3, 4]] 0 9 0 (by decide)

/-- C7: the word-level membership fast path agrees exactly with iterating
the per-slot read — `containsFingerprint i fp` is true iff some slot `j`
has `getFingerprint i j = fp`, for every well-formed bucket content and
every `fp`. -/
theorem containsFingerprint_fastpath_iff (cfg : TableCfg) (T : Table) (i fp : Nat)
    (hv : cfg.valid) (hw : wfTable cfg T) (hi : i < T.length) :
    containsFingerprint cfg T i fp = true ↔
      ∃ j, j < cfg.entriesPerBucket ∧ getFingerprint cfg T i j = fp :=
  containsFingerprint_eq_true_iff cfg T i fp hv hw hi

/-- C7 witness: the fast path finds fingerprint 3 stored at slot 2 of a
concrete bucket. -/
theorem containsFingerprint_fastpath_iff_witness :
    containsFingerprint cfg48 [[1, 2, 3, 4]] 0 3 = true :=
  (containsFingerprint_fastpath_iff cfg48 [[1, 2, 3, 4]] 0 3 (by decide) (by decide)
    (by decide)).mpr ⟨2, by decide, by decide⟩

/-- C1 counterexample: inserting the fingerprint 0 (the reserved
empty-slot sentinel, still a possible fingerprint value) into a bucket
with an empty slot returns `true` but leaves `fingerprintCount`
unchanged instead of increasing it by one. -/
theorem replacingFingerprintInsertion_insert_zero_cex :
    (replacingFingerprintInsertion cfg48 [[0, 0, 0, 0]] 0 0 false 0).inserted = true ∧
      fingerprintCount cfg48 (replacingFingerprintInsertion cfg48 [[0, 0, 0, 0]] 0 0 false 0).table 0 ≠
        fingerprintCount cfg48 [[0, 0, 0, 0]] 0 + 1 := by
  decide

/-- C1 (amended): for every in-range bucket index and every nonzero
fingerprint `fp` (a masked value, `fp & fp_mask = fp`), if
`replacingFingerprintInsertion(i, fp, false, prev)` returns `true` then
`containsFingerprint(i, fp)` holds afterwards and `fingerprintCount(i)`
is exactly one greater than before. -/
theorem replacingFingerprintInsertion_insert_spec (cfg : TableCfg) (T : Table)
    (i fp rnd : Nat) (hv : cfg.valid) (hw : wfTable cfg T) (hi : i < T.length)
    (hm : fp &&& cfg.fpMask = fp) (h0 : fp ≠ 0)
    (hins : (replacingFingerprintInsertion cfg T i fp false rnd).inserted = true) :
    containsFingerprint cfg (replacingFingerprintInsertion cfg T i fp false rnd).table i fp
        = true ∧
      fingerprintCount cfg (replacingFingerprintInsertion cfg T i fp false rnd).table i =
        fingerprintCount cfg T i + 1 := by
  cases hfind : (List.range cfg.entriesPerBucket).find?
      (fun j => getFingerprint cfg T i j == 0) with
  | none =>
    have hres : replacingFingerprintInsertion cfg T i fp false rnd = ⟨false, none, T⟩ := by
      unfold replacingFingerprintInsertion
      rw [hfind]
      simp
    rw [hres] at hins
    simp at hins
  | some j₀ =>
    have hres : replacingFingerprintInsertion cfg T i fp false rnd =
        ⟨true, none, insertFingerprint cfg T i j₀ fp⟩ := by
      unfold replacingFingerprintInsertion
      rw [hfind]
    have htab : (replacingFingerprintInsertion cfg T i fp false rnd).table =
        insertFingerprint cfg T i j₀ fp := by
      rw [hres]
    have hj₀ : j₀ < cfg.entriesPerBucket :=
      List.mem_range.1 (List.mem_of_find?_eq_some hfind)
    have hp0 : getFingerprint cfg T i j₀ = 0 := by
      simpa [beq_iff_eq] using List.find?_some hfind
    have hi' : i < (insertFingerprint cfg T i j₀ fp).length := by
      rw [insertFingerprint_length]
      exact hi
    have hwf' : wfTable cfg (insertFingerprint cfg T i j₀ fp) :=
      wfTable_insert cfg T i j₀ fp hw hi
    have hself : getFingerprint cfg (insertFingerprint cfg T i j₀ fp) i j₀ = fp := by
      rw [getFingerprint_insert_self cfg T i j₀ fp hv hw hi hj₀, hm]
    rw [htab]
    constructor
    · exact (containsFingerprint_eq_true_iff cfg _ i fp hv hwf' hi').2 ⟨j₀, hj₀, hself⟩
    · unfold fingerprintCount
      apply card_filter_update_true cfg.entriesPerBucket j₀ _ _ hj₀
      · simp [hp0]
      · rw [hself]
        exact h0
      · intro j hne
        rw [getFingerprint_insert_ne cfg T i j₀ fp j hne hi]

/-- C1 witness: inserting fingerprint 5 into an empty concrete bucket. -/
theorem replacingFingerprintInsertion_insert_spec_witness :
    containsFingerprint cfg48
        (replacingFingerprintInsertion cfg48 [[0, 0, 0, 0]] 0 5 false 0).table 0 5 = true ∧
      fingerprintCount cfg48
          (replacingFingerprintInsertion cfg48 [[0, 0, 0, 0]] 0 5 false 0).table 0 =
        fingerprintCount cfg48 [[0, 0, 0, 0]] 0 + 1 :=
  replacingFingerprintInsertion_insert_spec cfg48 [[0, 0, 0, 0]] 0 5 0 (by decide)
    (by decide) (by decide) (by decide) (by decide) (by decide)

/-- C2 counterexample: evicting with the fingerprint 0 (the reserved
empty-slot sentinel, still a possible fingerprint value) on a full bucket
overwrites an occupied slot with 0, so `fingerprintCount` drops instead
of staying unchanged. -/
theorem replacingFingerprintInsertion_evict_zero_cex :
    (replacingFingerprintInsertion cfg48 [[1, 1, 1, 1]] 0 0 true 0).inserted = false ∧
      (replacingFingerprintInsertion cfg48 [[1, 1, 1, 1]] 0 0 true 0).prevFp = some 1 ∧
      fingerprintCount cfg48 (replacingFingerprintInsertion cfg48 [[1, 1, 1, 1]] 0 0 true 0).table 0 ≠
        fingerprintCount cfg48 [[1, 1, 1, 1]] 0 := by
  decide

/-- C2 (amended): for every in-range bucket index whose bucket is full
and every nonzero fingerprint `fp` (a masked value), for every value of
`rand()`, `replacingFingerprintInsertion(i, fp, true, prev)` returns
`false`, sets `prev` to the previous occupant of slot
`rand() % entries_per_bucket`, overwrites exactly that slot with `fp`
(all other slots keep their value), after the call `fp` is present in
bucket `i`, and `fingerprintCount(i)` is unchanged. -/
theorem replacingFingerprintInsertion_evict_spec (cfg : TableCfg) (T : Table)
    (i fp rnd : Nat) (hv : cfg.valid) (hw : wfTable cfg T) (hi : i < T.length)
    (hfull : ∀ j, j < cfg.entriesPerBucket → getFingerprint cfg T i j ≠ 0)
    (hm : fp &&& cfg.fpMask = fp) (h0 : fp ≠ 0) :
    (replacingFingerprintInsertion cfg T i fp true rnd).inserted = false ∧
      (replacingFingerprintInsertion cfg T i fp true rnd).prevFp =
        some (getFingerprint cfg T i (rnd % cfg.entriesPerBucket)) ∧
      getFingerprint cfg (replacingFingerprintInsertion cfg T i fp true rnd).table i
          (rnd % cfg.entriesPerBucket) = fp ∧
      (∀ j, j ≠ rnd % cfg.entriesPerBucket →
        getFingerprint cfg (replacingFingerprintInsertion cfg T i fp true rnd).table i j =
          getFingerprint cfg T i j) ∧
      containsFingerprint cfg (replacingFingerprintInsertion cfg T i fp true rnd).table i fp
          = true ∧
      fingerprintCount cfg (replacingFingerprintInsertion cfg T i fp true rnd).table i =
        fingerprintCount cfg T i := by
  have hfind : (List.range cfg.entriesPerBucket).find?
      (fun j => getFingerprint cfg T i j == 0) = none := by
    rw [List.find?_eq_none]
    intro x hx
    simp only [beq_iff_eq]
    exact hfull x (List.mem_range.1 hx)
  have hnext : rnd % cfg.entriesPerBucket < cfg.entriesPerBucket :=
    Nat.mod_lt rnd hv.1
  have hres : replacingFingerprintInsertion cfg T i fp true rnd =
      ⟨false, some (getFingerprint cfg T i (rnd % cfg.entriesPerBucket)),
        insertFingerprint cfg T i (rnd % cfg.entriesPerBucket) fp⟩ := by
    unfold replacingFingerprintInsertion
    rw [hfind]
    simp
  have htab : (replacingFingerprintInsertion cfg T i fp true rnd).table =
      insertFingerprint cfg T i (rnd % cfg.entriesPerBucket) fp := by
    rw [hres]
  have hi' : i < (insertFingerprint cfg T i (rnd % cfg.entriesPerBucket) fp).length := by
    rw [insertFingerprint_length]
    exact hi
  have hwf' : wfTable cfg (insertFingerprint cfg T i (rnd % cfg.entriesPerBucket) fp) :=
    wfTable_insert cfg T i _ fp hw hi
  have hself : getFingerprint cfg
      (insertFingerprint cfg T i (rnd % cfg.entriesPerBucket) fp) i
      (rnd % cfg.entriesPerBucket) = fp := by
    rw [getFingerprint_insert_self cfg T i _ fp hv hw hi hnext, hm]
  refine ⟨by rw [hres], by rw [hres], ?_, ?_, ?_, ?_⟩
  · rw [htab]
    exact hself
  · intro j hne
    rw [htab]
    exact getFingerprint_insert_ne cfg T i _ fp j hne hi
  · rw [htab]
    exact (containsFingerprint_eq_true_iff cfg _ i fp hv hwf' hi').2
      ⟨rnd % cfg.entriesPerBucket, hnext, hself⟩
  · rw [htab]
    unfold fingerprintCount
    congr 1
    apply Finset.filter_congr
    intro j hj
    by_cases hjn : j = rnd % cfg.entriesPerBucket
    · rw [hjn, hself]
      exact iff_of_true h0 (hfull _ hnext)
    · rw [getFingerprint_insert_ne cfg T i _ fp j hjn hi]

/-- C2 witness: evicting from a full concrete bucket with fingerprint 9
and `rand() = 2` (binder-free components of the specification). -/
theorem replacingFingerprintInsertion_evict_spec_witness :
    (replacingFingerprintInsertion cfg48 [[1, 2, 3, 4]] 0 9 true 2).inserted = false ∧
      (replacingFingerprintInsertion cfg48 [[1, 2, 3, 4]] 0 9 true 2).prevFp =
        some (getFingerprint cfg48 [[1, 2, 3, 4]] 0 (2 % cfg48.entriesPerBucket)) ∧
      fingerprintCount cfg48
          (replacingFingerprintInsertion cfg48 [[1, 2, 3, 4]] 0 9 true 2).table 0 =
        fingerprintCount cfg48 [[1, 2, 3, 4]] 0 :=
  ⟨(replacingFingerprintInsertion_evict_spec cfg48 [[1, 2, 3, 4]] 0 9 2 (by decide)
      (by decide) (by decide) (by decide) (by decide) (by decide)).1,
    (replacingFingerprintInsertion_evict_spec cfg48 [[1, 2, 3, 4]] 0 9 2 (by decide)
      (by decide) (by decide) (by decide) (by decide) (by decide)).2.1,
    (replacingFingerprintInsertion_evict_spec cfg48 [[1, 2, 3, 4]] 0 9 2 (by decide)
      (by decide) (by decide) (by decide) (by decide) (by decide)).2.2.2.2.2⟩

/-- C8 counterexample: deleting the fingerprint 0 succeeds by "clearing"
a slot that already reads 0, so `containsFingerprint(i, 0)` is still true
afterwards although no other slot of the bucket held 0. -/
theorem deleteFingerprint_zero_contains_cex :
    (deleteFingerprint cfg48 0 [[0, 1, 2, 3]] 0).1 = true ∧
      containsFingerprint cfg48 (deleteFingerprint cfg48 0 [[0, 1, 2, 3]] 0).2 0 0 = true ∧
      getFingerprint cfg48 [[0, 1, 2, 3]] 0 1 ≠ 0 ∧
      getFingerprint cfg48 [[0, 1, 2, 3]] 0 2 ≠ 0 ∧
      getFingerprint cfg48 [[0, 1, 2, 3]] 0 3 ≠ 0 := by
  decide

/-- C8 (amended): for every in-range bucket index `i` and every nonzero
fingerprint `fp`: if no slot of bucket `i` reads `fp`,
`deleteFingerprint(fp, i)` returns `false` and the table is unchanged;
if `j₀` is the first slot reading `fp`, it returns `true`, clears exactly
slot `j₀` (all other slots and all other buckets unchanged), and
afterwards `containsFingerprint(i, fp)` holds iff another slot `j ≠ j₀`
of the bucket also held `fp`.  (For `fp = 0` the cleared slot still reads
0, so the contains clause fails; hence the nonzero restriction.) -/
theorem deleteFingerprint_spec (cfg : TableCfg) (T : Table) (i fp : Nat)
    (hv : cfg.valid) (hw : wfTable cfg T) (hi : i < T.length) (h0 : fp ≠ 0) :
    ((∀ j, j < cfg.entriesPerBucket → getFingerprint cfg T i j ≠ fp) →
      deleteFingerprint cfg fp T i = (false, T)) ∧
    (∀ j₀, j₀ < cfg.entriesPerBucket → getFingerprint cfg T i j₀ = fp →
      (∀ j', j' < j₀ → getFingerprint cfg T i j' ≠ fp) →
      (deleteFingerprint cfg fp T i).1 = true ∧
        getFingerprint cfg (deleteFingerprint cfg fp T i).2 i j₀ = 0 ∧
        (∀ j, j ≠ j₀ →
          getFingerprint cfg (deleteFingerprint cfg fp T i).2 i j =
            getFingerprint cfg T i j) ∧
        (∀ k, k ≠ i →
          (deleteFingerprint cfg fp T i).2.getD k [] = T.getD k []) ∧
        (containsFingerprint cfg (deleteFingerprint cfg fp T i).2 i fp = true ↔
          ∃ j, j < cfg.entriesPerBucket ∧ j ≠ j₀ ∧ getFingerprint cfg T i j = fp)) := by
  constructor
  · intro hnone
    have hfind : (List.range cfg.entriesPerBucket).find?
        (fun j => getFingerprint cfg T i j == fp) = none := by
      rw [List.find?_eq_none]
      intro x hx
      simp only [beq_iff_eq]
      exact hnone x (List.mem_range.1 hx)
    unfold deleteFingerprint
    rw [hfind]
  · intro j₀ hj₀ hmatch hfirst
    have hfind : (List.range cfg.entriesPerBucket).find?
        (fun j => getFingerprint cfg T i j == fp) = some j₀ := by
      apply find?_range_eq_some _ _ _ hj₀
      · simp [beq_iff_eq, hmatch]
      · intro j hj
        simp [beq_iff_eq]
        exact hfirst j hj
    have hres : deleteFingerprint cfg fp T i = (true, insertFingerprint cfg T i j₀ 0) := by
      unfold deleteFingerprint
      rw [hfind]
    have htab : (deleteFingerprint cfg fp T i).2 = insertFingerprint cfg T i j₀ 0 := by
      rw [hres]
    have hi' : i < (insertFingerprint cfg T i j₀ 0).length := by
      rw [insertFingerprint_length]
      exact hi
    have hwf' : wfTable cfg (insertFingerprint cfg T i j₀ 0) :=
      wfTable_insert cfg T i j₀ 0 hw hi
    have hcleared : getFingerprint cfg (insertFingerprint cfg T i j₀ 0) i j₀ = 0 := by
      rw [getFingerprint_insert_self cfg T i j₀ 0 hv hw hi hj₀]
      simp
    refine ⟨by rw [hres], by rw [htab]; exact hcleared, ?_, ?_, ?_⟩
    · intro j hne
      rw [htab]
      exact getFingerprint_insert_ne cfg T i j₀ 0 j hne hi
    · intro k hk
      rw [htab]
      exact insertFingerprint_getD_other cfg T i j₀ 0 k hk
    · rw [htab, containsFingerprint_eq_true_iff cfg _ i fp hv hwf' hi']
      constructor
      · rintro ⟨j, hj, hjeq⟩
        by_cases hjj : j = j₀
        · subst hjj
          rw [hcleared] at hjeq
          exact absurd hjeq.symm h0
        · rw [getFingerprint_insert_ne cfg T i j₀ 0 j hjj hi] at hjeq
          exact ⟨j, hj, hjj, hjeq⟩
      · rintro ⟨j, hj, hjj, hjeq⟩
        refine ⟨j, hj, ?_⟩
        rw [getFingerprint_insert_ne cfg T i j₀ 0 j hjj hi]
        exact hjeq

/-- C8 witness: deleting fingerprint 5 from a concrete bucket where slot
1 is its first occurrence. -/
theorem deleteFingerprint_spec_witness :
    (deleteFingerprint cfg48 5 [[7, 5, 0, 5]] 0).1 = true :=
  ((deleteFingerprint_spec cfg48 [[7, 5, 0, 5]] 0 5 (by decide) (by decide) (by decide)
    (by decide)).2 1 (by decide) (by decide) (by decide)).1

/-- C10: for every in-range bucket index `i`, `deleteFingerprint(0, i)`
returns `true` iff bucket `i` has an empty slot
(`fingerprintCount(i) < entries_per_bucket`), and in either case the
table is returned exactly unchanged: "clearing" the first slot that reads
0 writes 0 over 0. -/
theorem deleteFingerprint_zero_spec (cfg : TableCfg) (T : Table) (i : Nat)
    (hv : cfg.valid) (hw : wfTable cfg T) (hi : i < T.length) :
    (deleteFingerprint cfg 0 T i).2 = T ∧
      ((deleteFingerprint cfg 0 T i).1 = true ↔
        fingerprintCount cfg T i < cfg.entriesPerBucket) := by
  cases hfind : (List.range cfg.entriesPerBucket).find?
      (fun j => getFingerprint cfg T i j == 0) with
  | none =>
    have hnone : ∀ j, j < cfg.entriesPerBucket → getFingerprint cfg T i j ≠ 0 := by
      intro j hj
      have := List.find?_eq_none.1 hfind j (List.mem_range.2 hj)
      simpa [beq_iff_eq] using this
    have hres : deleteFingerprint cfg 0 T i = (false, T) := by
      unfold deleteFingerprint
      rw [hfind]
    refine ⟨by rw [hres], ?_⟩
    rw [hres]
    simp only [Bool.false_eq_true, false_iff]
    intro hlt
    unfold fingerprintCount at hlt
    obtain ⟨j, hj, hpj⟩ := (card_filter_lt_iff_exists cfg.entriesPerBucket _).1 hlt
    exact hpj (hnone j hj)
  | some j₀ =>
    have hj₀ : j₀ < cfg.entriesPerBucket :=
      List.mem_range.1 (List.mem_of_find?_eq_some hfind)
    have hp0 : getFingerprint cfg T i j₀ = 0 := by
      simpa [beq_iff_eq] using List.find?_some hfind
    have hres : deleteFingerprint cfg 0 T i = (true, insertFingerprint cfg T i j₀ 0) := by
      unfold deleteFingerprint
      rw [hfind]
    obtain ⟨hlen, hval⟩ := bucket_wf cfg T hw i hi
    have hj₀l : j₀ < (T.getD i []).length := hlen ▸ hj₀
    have hgd : (T.getD i []).getD j₀ 0 = 0 := by
      have heq := (getFingerprint_eq_getD cfg T i j₀ hv hw hi hj₀).1
      rw [← heq]
      exact hp0
    have hbkt : BitManager.write cfg j₀ (T.getD i []) (0 &&& cfg.fpMask) = T.getD i [] := by
      unfold BitManager.write
      have hz : (0 &&& cfg.fpMask) % 2 ^ cfg.bitsPerFp = (T.getD i []).getD j₀ 0 := by
        rw [hgd]
        simp
      rw [hz]
      exact set_getD_self (T.getD i []) j₀ 0 hj₀l
    have htab : insertFingerprint cfg T i j₀ 0 = T := by
      unfold insertFingerprint
      rw [hbkt]
      exact set_getD_self T i [] hi
    refine ⟨by rw [hres, htab], ?_⟩
    rw [hres]
    simp only [true_iff]
    unfold fingerprintCount
    apply (card_filter_lt_iff_exists cfg.entriesPerBucket _).2
    exact ⟨j₀, hj₀, by simp [hp0]⟩

/-- C10 witness: deleting 0 from a concrete bucket with an empty slot. -/
theorem deleteFingerprint_zero_spec_witness :
    (deleteFingerprint cfg48 0 [[1, 0, 2, 3]] 0).2 = [[1, 0, 2, 3]] ∧
      ((deleteFingerprint cfg48 0 [[1, 0, 2, 3]] 0).1 = true ↔
        fingerprintCount cfg48 [[1, 0, 2, 3]] 0 < cfg48.entriesPerBucket) :=
  deleteFingerprint_zero_spec cfg48 [[1, 0, 2, 3]] 0 (by decide) (by decide) (by decide)
